import Mathlib

/-
Verification of the AEOS memory managers.

This file is a shallow embedding of the two allocators of the repository:

 * src/mm/pmm.c   - the physical page allocator (binary buddy system), and
 * src/mm/heap.c  - the kernel heap (first-fit block list with splitting
                    and coalescing),

together with proofs and refutations of the specified properties.

Modelling conventions:

 * C uint64_t / size_t values are Nat; where C overflow semantics matter
   the operations wrap explicitly modulo 2^64 (wadd / wsub below).
 * The buddy allocator's per-order intrusive free lists are modelled as a
   List (List Nat) of length PMM_MAX_ORDER + 1: the list at index o holds
   the start addresses of the free blocks of order o, front of the Lean
   list = head of the C list (add_to_free_list pushes at the front,
   remove_from_free_list pops the front, exactly as the C functions do).
 * The heap arena is a contiguous tiling of blocks; the doubly linked
   block list of heap.c is modelled as a List of (size, is_free) records
   in address order.  The address of the i-th block is
   heap_start + sum of the sizes of the blocks before it, which is exactly
   the layout heap.c maintains (split_block and merge_free_blocks keep the
   list in address order and keep the sizes tiling the arena).
 * C while loops are compiled to structurally recursive functions.  Loops
   whose counter is an order (bounded by PMM_MAX_ORDER) recurse on the
   exact number of remaining iterations, so the Lean recursion performs
   precisely the iterations the C loop performs.  The pmm_init cursor
   loop takes an explicit iteration budget of (region size / PAGE_SIZE) + 1;
   since every iteration of the C loop advances the cursor by at least
   PAGE_SIZE, the budget is never exhausted and the recursion performs
   exactly the iterations of the C loop.
-/

namespace Aeos

/-- Constant 2^64, the modulus of the C uint64_t / size_t arithmetic. -/
def U64 : Nat := 18446744073709551616

theorem U64_eq : U64 = 2 ^ 64 := by norm_num [U64]

/-- Wrapping 64-bit addition, models C uint64_t / size_t addition. -/
def wadd (a b : Nat) : Nat := (a + b) % U64

/-- Wrapping 64-bit subtraction, models C uint64_t / size_t subtraction. -/
def wsub (a b : Nat) : Nat := (a + U64 - b % U64) % U64

/-- PAGE_SIZE from include/aeos/mm.h. -/
def PAGE_SIZE : Nat := 4096

/-- PMM_MAX_ORDER from include/aeos/pmm.h. -/
def PMM_MAX_ORDER : Nat := 10

/-- Size in bytes of a block of the given order: PAGE_SIZE << order. -/
def blockSize (o : Nat) : Nat := PAGE_SIZE <<< o

/-- PAGE_ALIGN_UP from include/aeos/mm.h:
    ((addr) + PAGE_SIZE - 1) & PAGE_MASK on uint64_t
    (masking with ~(PAGE_SIZE-1) rounds down to a multiple of 4096). -/
def page_align_up (x : Nat) : Nat := (x + 4095) % U64 / 4096 * 4096

/-- PAGE_ALIGN_DOWN from include/aeos/mm.h: (addr) & PAGE_MASK. -/
def page_align_down (x : Nat) : Nat := x % U64 / 4096 * 4096

/-- State of the buddy allocator (the static struct pmm in src/mm/pmm.c). -/
structure PmmState where
  freeLists : List (List Nat)
  memStart : Nat
  memEnd : Nat
  totalPages : Nat
  freePages : Nat
  initialized : Bool
deriving DecidableEq

/-- The free list of a given order (pmm.free_lists[order]). -/
def getFL (L : List (List Nat)) (o : Nat) : List Nat := L.getD o []

/-- add_to_free_list from src/mm/pmm.c: push the block at the front of the
    order's free list. -/
def add_to_free_list (L : List (List Nat)) (addr o : Nat) : List (List Nat) :=
  L.set o (addr :: getFL L o)

/-- remove_from_free_list from src/mm/pmm.c: pop the FIRST block of the
    order's free list and return its address (0 when the list is empty). -/
def remove_from_free_list (L : List (List Nat)) (o : Nat) : Nat × List (List Nat) :=
  match getFL L o with
  | [] => (0, L)
  | a :: t => (a, L.set o t)

/-- is_in_free_list from src/mm/pmm.c: linear scan of the order's list. -/
def is_in_free_list (L : List (List Nat)) (addr o : Nat) : Bool :=
  decide (addr ∈ getFL L o)

/-- get_buddy_addr from src/mm/pmm.c: addr XOR (PAGE_SIZE << order). -/
def get_buddy_addr (addr o : Nat) : Nat := addr ^^^ blockSize o

/-- Inner loop of pmm_init: find the largest order (from PMM_MAX_ORDER down
    to 0) such that the block fits in the remaining space and the cursor is
    aligned to the block size.  The C alignment test
    (current & (block_size - 1)) == 0 is current % block_size = 0 since
    block_size is a power of two. -/
def findOrder (remaining current : Nat) : Nat → Option Nat
  | 0 =>
    if blockSize 0 ≤ remaining ∧ current % blockSize 0 = 0 then some 0 else none
  | o + 1 =>
    if blockSize (o + 1) ≤ remaining ∧ current % blockSize (o + 1) = 0 then some (o + 1)
    else findOrder remaining current o

/-- Cursor loop of pmm_init: walk from available_start to available_end,
    greedily emitting the largest aligned block that fits; the first
    argument is the iteration budget (see the module comment: the budget
    passed by pmm_init is never exhausted, every iteration advances the
    cursor by at least PAGE_SIZE).  Returns the free lists and the
    free_pages counter. -/
def init_loop (availEnd : Nat) : Nat → Nat → List (List Nat) → Nat → List (List Nat) × Nat
  | 0, _, L, fp => (L, fp)
  | fuel + 1, current, L, fp =>
    if current < availEnd then
      match findOrder (availEnd - current) current PMM_MAX_ORDER with
      | some o =>
          init_loop availEnd fuel (current + blockSize o)
            (add_to_free_list L current o) (wadd fp (1 <<< o))
      | none => init_loop availEnd fuel (current + PAGE_SIZE) L fp
    else (L, fp)

/-- pmm_init from src/mm/pmm.c. -/
def pmm_init (mem_start mem_end kernel_end : Nat) : PmmState :=
  let ms := page_align_up mem_start
  let me := page_align_down mem_end
  let ke := page_align_up kernel_end
  let r := init_loop me ((me - ke) / PAGE_SIZE + 1) ke (List.replicate 11 []) 0
  { freeLists := r.1
    memStart := ms
    memEnd := me
    totalPages := wsub me ms >>> 12
    freePages := r.2
    initialized := true }

/-- The zero-initialized static struct pmm: the allocator state before any
    call to pmm_init (C statics are zero-initialized). -/
def pmm_uninit : PmmState :=
  { freeLists := List.replicate 11 []
    memStart := 0
    memEnd := 0
    totalPages := 0
    freePages := 0
    initialized := false }

/-- Scan loop of pmm_alloc_pages: first nonempty free list at order ≥ co;
    the first argument is the exact number of remaining candidate orders
    (pmm_alloc_pages passes PMM_MAX_ORDER + 1 - order, so the scan covers
    exactly the orders order..PMM_MAX_ORDER the C for loop covers). -/
def find_nonempty (L : List (List Nat)) : Nat → Nat → Option Nat
  | 0, _ => none
  | k + 1, co => if getFL L co ≠ [] then some co else find_nonempty L k (co + 1)

/-- Split loop of pmm_alloc_pages: while current_order > order, decrement
    current_order and push the upper buddy half on its free list.  The
    first argument is the exact number of remaining iterations
    (current_order - order). -/
def split_loop (addr : Nat) : Nat → Nat → List (List Nat) → List (List Nat)
  | 0, _, L => L
  | k + 1, co, L =>
      split_loop addr k (co - 1) (add_to_free_list L (addr + blockSize (co - 1)) (co - 1))

/-- pmm_alloc_pages from src/mm/pmm.c.  Returns the new state and the
    address (0 on failure, as in the C code). -/
def pmm_alloc_pages (s : PmmState) (order : Nat) : PmmState × Nat :=
  if s.initialized = false then (s, 0)
  else if PMM_MAX_ORDER < order then (s, 0)
  else
    match find_nonempty s.freeLists (PMM_MAX_ORDER + 1 - order) order with
    | none => (s, 0)
    | some co =>
      let r := remove_from_free_list s.freeLists co
      let L2 := split_loop r.1 (co - order) co r.2
      ({ s with freeLists := L2, freePages := wsub s.freePages (1 <<< order) }, r.1)

/-- Coalescing loop of pmm_free_pages: while order < PMM_MAX_ORDER, stop
    unless the buddy address is inside the managed range and present in the
    order's free list; otherwise call remove_from_free_list(order) — which
    pops the FIRST block of that list, exactly as the C code does — take
    the lower of the two addresses, and go up one order.  The first
    argument is the exact number of remaining iterations
    (PMM_MAX_ORDER - order). -/
def merge_loop (ms me : Nat) : Nat → Nat → Nat → List (List Nat) → Nat × Nat × List (List Nat)
  | 0, addr, order, L => (addr, order, L)
  | k + 1, addr, order, L =>
      let buddy := get_buddy_addr addr order
      if buddy < ms ∨ me ≤ buddy ∨ is_in_free_list L buddy order = false then
        (addr, order, L)
      else
        merge_loop ms me k (min addr buddy) (order + 1) (remove_from_free_list L order).2

/-- pmm_free_pages from src/mm/pmm.c. -/
def pmm_free_pages (s : PmmState) (addr order : Nat) : PmmState :=
  if s.initialized = false then s
  else if PMM_MAX_ORDER < order then s
  else if addr < s.memStart ∨ s.memEnd ≤ addr then s
  else if addr % blockSize order ≠ 0 then s
  else
    let r := merge_loop s.memStart s.memEnd (PMM_MAX_ORDER - order) addr order s.freeLists
    { s with
      freeLists := add_to_free_list r.2.2 r.1 r.2.1
      freePages := wadd s.freePages (1 <<< r.2.1) }

/-! Heap allocator (src/mm/heap.c). -/

/-- BLOCK_HEADER_SIZE from src/mm/heap.c: sizeof(heap_block_t) with
    size_t size; bool is_free (padded to 8); two 8-byte pointers = 32. -/
def BLOCK_HEADER_SIZE : Nat := 32

/-- MIN_BLOCK_SIZE from src/mm/heap.c: BLOCK_HEADER_SIZE + 16. -/
def MIN_BLOCK_SIZE : Nat := 48

/-- One block of the heap block list: its total size (header included, the
    size field of heap_block_t) and its is_free flag.  The next/prev links
    of heap_block_t are the list structure itself. -/
structure HBlock where
  size : Nat
  isFree : Bool
deriving DecidableEq

/-- State of the heap allocator (the static struct heap in src/mm/heap.c).
    blocks is the block list in address order; the i-th block lives at
    heapStart + (sum of the sizes of the blocks before it), the layout
    heap.c maintains. -/
structure HeapState where
  heapStart : Nat
  heapEnd : Nat
  heapSize : Nat
  blocks : List HBlock
  numAllocs : Nat
  numFrees : Nat
  initialized : Bool
deriving DecidableEq

/-- heap_init from src/mm/heap.c: one free block spanning the arena. -/
def heap_init (start size : Nat) : HeapState :=
  { heapStart := start
    heapEnd := wadd start size
    heapSize := size
    blocks := [⟨size, true⟩]
    numAllocs := 0
    numFrees := 0
    initialized := true }

/-- Size rounding of kmalloc: (size + BLOCK_HEADER_SIZE + 7) & ~7 in
    uint64 arithmetic (masking with ~7 rounds down to a multiple of 8),
    then raised to MIN_BLOCK_SIZE. -/
def kmalloc_round (size : Nat) : Nat :=
  let sz := (size + BLOCK_HEADER_SIZE + 7) % U64 / 8 * 8
  if sz < MIN_BLOCK_SIZE then MIN_BLOCK_SIZE else sz

/-- Combined walk of find_free_block + split_block + the used marking of
    kmalloc: find the first free block with size ≥ sz (first fit); split it
    when its size is at least sz + MIN_BLOCK_SIZE (split_block puts the
    remainder after it as a free block); mark the found block used.
    Returns the new block list and the byte offset of the found block from
    heap_start, or none when no block fits. -/
def alloc_blocks (sz : Nat) : List HBlock → Option (List HBlock × Nat)
  | [] => none
  | b :: rest =>
    if b.isFree = true ∧ sz ≤ b.size then
      if sz + MIN_BLOCK_SIZE ≤ b.size then
        some (⟨sz, false⟩ :: ⟨b.size - sz, true⟩ :: rest, 0)
      else some (⟨b.size, false⟩ :: rest, 0)
    else
      match alloc_blocks sz rest with
      | none => none
      | some (l, off) => some (b :: l, off + b.size)

/-- kmalloc from src/mm/heap.c.  Returns the new state and the payload
    address (block address + BLOCK_HEADER_SIZE), none for NULL. -/
def kmalloc (s : HeapState) (size : Nat) : HeapState × Option Nat :=
  if s.initialized = false then (s, none)
  else if size = 0 then (s, none)
  else
    match alloc_blocks (kmalloc_round size) s.blocks with
    | none => (s, none)
    | some (l, off) =>
      ({ s with blocks := l, numAllocs := wadd s.numAllocs 1 },
       some (s.heapStart + off + BLOCK_HEADER_SIZE))

/-- Work list walk of merge_free_blocks: the first argument is the block
    the C cursor stands on; when it and its successor are both free they
    merge (sizes add, the successor is unlinked) and the cursor stays,
    otherwise the cursor advances.  Exactly the while loop of
    merge_free_blocks in src/mm/heap.c. -/
def merge_aux (b : HBlock) : List HBlock → List HBlock
  | [] => [b]
  | c :: rest =>
    if b.isFree = true ∧ c.isFree = true then merge_aux ⟨b.size + c.size, true⟩ rest
    else b :: merge_aux c rest

/-- merge_free_blocks from src/mm/heap.c. -/
def merge_free_blocks : List HBlock → List HBlock
  | [] => []
  | b :: rest => merge_aux b rest

/-- Find the block whose header is at the given address: walk the block
    list accumulating addresses.  This models the C cast
    (heap_block_t *)((uint64_t)ptr - BLOCK_HEADER_SIZE) for pointers whose
    header address is a live block header; the model is only applied on
    that case (the C code would reinterpret raw memory otherwise). -/
def find_block (target : Nat) : Nat → List HBlock → Option (Nat × HBlock)
  | _, [] => none
  | base, b :: rest =>
    if base = target then some (0, b)
    else (find_block target (base + b.size) rest).map fun p => (p.1 + 1, p.2)

/-- Outcome of kfree, distinguishing the silent NULL return from the
    logged error returns of src/mm/heap.c. -/
inductive KfreeResult where
  | nullRet
  | notInit
  | invalidPtr
  | doubleFree
  | freed
deriving DecidableEq

/-- kfree from src/mm/heap.c: NULL is a silent return before anything else
    is examined; then the initialization check; then the range check of
    ptr - BLOCK_HEADER_SIZE against [heap_start, heap_end); then the
    double-free check on is_free; otherwise mark free, bump num_frees and
    run the global coalescing pass. -/
def kfree (s : HeapState) (ptr : Nat) : HeapState × KfreeResult :=
  if ptr = 0 then (s, .nullRet)
  else if s.initialized = false then (s, .notInit)
  else
    let a := wsub ptr BLOCK_HEADER_SIZE
    if a < s.heapStart ∨ s.heapEnd ≤ a then (s, .invalidPtr)
    else
      match find_block a s.heapStart s.blocks with
      | none => (s, .invalidPtr)
      | some (i, b) =>
        if b.isFree = true then (s, .doubleFree)
        else
          ({ s with
             blocks := merge_free_blocks (s.blocks.set i ⟨b.size, true⟩)
             numFrees := wadd s.numFrees 1 }, .freed)

/-- kcalloc from src/mm/heap.c: total_size = nmemb * size in wrapping
    size_t arithmetic with no overflow check, then kmalloc, then a loop
    zeroing total_size bytes.  The third component records how many bytes
    the zeroing loop writes (the model keeps no byte contents). -/
def kcalloc (s : HeapState) (nmemb size : Nat) : HeapState × Option Nat × Nat :=
  let total := nmemb * size % U64
  let r := kmalloc s total
  match r.2 with
  | none => (r.1, none, 0)
  | some a => (r.1, some a, total)

/-- krealloc from src/mm/heap.c.  NULL ptr acts as kmalloc; new_size 0
    acts as kfree; a block already large enough (size ≥ new_size +
    BLOCK_HEADER_SIZE) is returned unchanged; otherwise allocate, copy
    (bytes are not modelled) and free the old block. -/
def krealloc (s : HeapState) (ptr new_size : Nat) : HeapState × Option Nat :=
  if ptr = 0 then kmalloc s new_size
  else if new_size = 0 then ((kfree s ptr).1, none)
  else
    match find_block (wsub ptr BLOCK_HEADER_SIZE) s.heapStart s.blocks with
    | none => (s, none)
    | some (_, b) =>
      if wadd new_size BLOCK_HEADER_SIZE ≤ b.size then (s, some ptr)
      else
        let r := kmalloc s new_size
        match r.2 with
        | none => (r.1, none)
        | some a => ((kfree r.1 ptr).1, some a)

/-- Sum of the block sizes of a block list prefix: the byte offset of the
    next block. -/
def sumSizes : List HBlock → Nat
  | [] => 0
  | b :: t => b.size + sumSizes t

/-- used_size as computed by heap_get_stats: sum of the sizes of the
    non-free blocks. -/
def used_size : List HBlock → Nat
  | [] => 0
  | b :: t => (if b.isFree = true then 0 else b.size) + used_size t

/-! Basic facts about the free-list representation. -/

theorem getFL_set_self : ∀ (L : List (List Nat)) (i : Nat) (x : List Nat),
    i < L.length → getFL (L.set i x) i = x := by
  intro L
  induction L with
  | nil => intro i x h; simp at h
  | cons hd tl ih =>
    intro i x h
    cases i with
    | zero => simp [getFL]
    | succ j =>
      simp only [List.set, getFL, List.getD_cons_succ] at *
      exact ih j x (by simpa using h)

theorem getFL_set_ne : ∀ (L : List (List Nat)) (i j : Nat) (x : List Nat),
    i ≠ j → getFL (L.set i x) j = getFL L j := by
  intro L
  induction L with
  | nil => intro i j x _; simp [List.set]
  | cons hd tl ih =>
    intro i j x hij
    cases i with
    | zero =>
      cases j with
      | zero => exact absurd rfl hij
      | succ j => simp [getFL]
    | succ i =>
      cases j with
      | zero => simp [getFL]
      | succ j =>
        simp only [List.set, getFL, List.getD_cons_succ]
        exact ih i j x (fun h => hij (by simp [h]))

theorem getFL_replicate (n : Nat) (o : Nat) : getFL (List.replicate n []) o = [] := by
  induction n generalizing o with
  | zero => simp [getFL]
  | succ m ih =>
    cases o with
    | zero => simp [getFL]
    | succ j => simp only [List.replicate, getFL, List.getD_cons_succ]; exact ih j

theorem length_add_to_free_list (L : List (List Nat)) (a o : Nat) :
    (add_to_free_list L a o).length = L.length := by
  simp [add_to_free_list]

theorem getFL_add_self (L : List (List Nat)) (a o : Nat) (h : o < L.length) :
    getFL (add_to_free_list L a o) o = a :: getFL L o :=
  getFL_set_self L o _ h

theorem getFL_add_ne (L : List (List Nat)) (a o j : Nat) (h : o ≠ j) :
    getFL (add_to_free_list L a o) j = getFL L j :=
  getFL_set_ne L o j _ h

/-! Power-of-two block sizes and the buddy address. -/

theorem blockSize_eq (o : Nat) : blockSize o = 2 ^ (12 + o) := by
  simp [blockSize, PAGE_SIZE, Nat.shiftLeft_eq, pow_add]

theorem blockSize_pos (o : Nat) : 0 < blockSize o := by
  rw [blockSize_eq]; exact Nat.pos_pow_of_pos _ (by norm_num)

theorem blockSize_succ (o : Nat) : blockSize (o + 1) = 2 * blockSize o := by
  rw [blockSize_eq, blockSize_eq, ← Nat.add_assoc, pow_succ, Nat.mul_comm]

theorem blockSize_dvd (o o' : Nat) (h : o ≤ o') : blockSize o ∣ blockSize o' := by
  rw [blockSize_eq, blockSize_eq]
  exact pow_dvd_pow 2 (by omega)

theorem mod_blockSize_of_le {o o' e : Nat} (h : o ≤ o') (he : e % blockSize o' = 0) :
    e % blockSize o = 0 := by
  rw [← Nat.dvd_iff_mod_eq_zero] at he ⊢
  exact dvd_trans (blockSize_dvd o o' h) he

theorem xor_shiftLeft (a b k : Nat) : (a <<< k) ^^^ (b <<< k) = (a ^^^ b) <<< k := by
  apply Nat.eq_of_testBit_eq
  intro i
  simp only [Nat.testBit_xor, Nat.testBit_shiftLeft]
  cases Nat.decLe k i with
  | isTrue h => simp [h]
  | isFalse h => simp [h]

theorem xor_one_even (m : Nat) : (2 * m) ^^^ 1 = 2 * m + 1 := by
  apply Nat.eq_of_testBit_eq
  intro i
  cases i with
  | zero =>
    simp only [Nat.testBit_xor, Nat.testBit_zero]
    have h1 : (2 * m) % 2 = 0 := by omega
    have h2 : (2 * m + 1) % 2 = 1 := by omega
    simp [h1, h2]
  | succ j =>
    rw [Nat.testBit_xor]
    simp only [Nat.testBit_succ]
    have h1 : (2 * m) / 2 = m := by omega
    have h2 : (2 * m + 1) / 2 = m := by omega
    have h3 : (1 : Nat) / 2 = 0 := by norm_num
    simp [h1, h2, h3]

theorem xor_one_odd (m : Nat) : (2 * m + 1) ^^^ 1 = 2 * m := by
  have h := xor_one_even m
  have : ((2 * m) ^^^ 1) ^^^ 1 = 2 * m := by
    rw [Nat.xor_assoc, Nat.xor_self, Nat.xor_zero]
  rw [h] at this
  exact this

theorem xor_cancel (a b : Nat) : (a ^^^ b) ^^^ b = a := by
  rw [Nat.xor_assoc, Nat.xor_self, Nat.xor_zero]

theorem xor_ne_self {a b : Nat} (hb : 0 < b) : a ^^^ b ≠ a := by
  intro h
  have h2 : (a ^^^ b) ^^^ a = 0 := by rw [h, Nat.xor_self]
  rw [Nat.xor_comm a b, xor_cancel] at h2
  omega

/-- Characterization of the buddy address of an order-aligned block: the
    two buddies are the even and odd halves of their parent block. -/
theorem buddy_spec (o e : Nat) (h : e % blockSize o = 0) :
    ∃ m, (e = 2 * m * blockSize o ∧ e ^^^ blockSize o = (2 * m + 1) * blockSize o) ∨
         (e = (2 * m + 1) * blockSize o ∧ e ^^^ blockSize o = 2 * m * blockSize o) := by
  have hdvd : blockSize o ∣ e := (Nat.dvd_iff_mod_eq_zero).2 h
  obtain ⟨q, hq⟩ := hdvd
  have hbs : blockSize o = 1 <<< (12 + o) := by
    rw [blockSize_eq, Nat.shiftLeft_eq, Nat.one_mul]
  have he : e = q <<< (12 + o) := by
    rw [Nat.shiftLeft_eq, hq, blockSize_eq, Nat.mul_comm]
  have hx : e ^^^ blockSize o = (q ^^^ 1) <<< (12 + o) := by
    rw [he, hbs, xor_shiftLeft]
  rcases Nat.even_or_odd q with ⟨m, hm⟩ | ⟨m, hm⟩
  · refine ⟨m, Or.inl ⟨?_, ?_⟩⟩
    · rw [hq, hm]; ring
    · rw [hx, hm, two_mul m, ← two_mul m, xor_one_even, Nat.shiftLeft_eq, ← blockSize_eq]
  · refine ⟨m, Or.inr ⟨?_, ?_⟩⟩
    · rw [hq, hm]; ring
    · rw [hx, hm, xor_one_odd, Nat.shiftLeft_eq, ← blockSize_eq]

/-! Reachable states of the page allocator and their invariants. -/

/-- Well-formedness of one free-list entry of order o: aligned to its own
    block size and entirely inside the managed range. -/
def entryOK (ms me o e : Nat) : Prop :=
  e % blockSize o = 0 ∧ ms ≤ e ∧ e + blockSize o ≤ me

/-- No two entries of an order's free list are buddies of each other. -/
def NoPair (l : List Nat) (o : Nat) : Prop :=
  ∀ e ∈ l, (e ^^^ blockSize o) ∉ l

/-- Well-formedness of a block held by a caller: the pair (address, order)
    a successful pmm_alloc_pages handed out and pmm_free_pages gets back. -/
def heldOK (ms me : Nat) (p : Nat × Nat) : Prop :=
  p.2 ≤ PMM_MAX_ORDER ∧ entryOK ms me p.2 p.1

/-- Invariant of the reachable buddy-allocator states. -/
structure PmmInv (s : PmmState) (held : List (Nat × Nat)) : Prop where
  hinit : s.initialized = true
  hms : 0 < s.memStart
  hlen : s.freeLists.length = 11
  hentries : ∀ o, o ≤ PMM_MAX_ORDER → ∀ e ∈ getFL s.freeLists o, entryOK s.memStart s.memEnd o e
  hnopair : ∀ o, o < PMM_MAX_ORDER → NoPair (getFL s.freeLists o) o
  hheld : ∀ p ∈ held, heldOK s.memStart s.memEnd p

/-- Admissible arguments of pmm_init: the kernel lies inside the managed
    range, the range starts above address 0 (0 is the failure sentinel of
    pmm_alloc_pages) and the addresses are in the uint64 range without
    wrapping in PAGE_ALIGN_UP. -/
def validPmmInit (mem_start mem_end kernel_end : Nat) : Prop :=
  0 < mem_start ∧ mem_start ≤ kernel_end ∧ kernel_end ≤ mem_end ∧ mem_end + 4095 < U64

/-- States reachable from pmm_init through successful allocations and
    frees of held blocks, with the held blocks recorded.  Failing
    pmm_alloc_pages calls leave the state unchanged, so they do not affect
    the reachable set. -/
inductive Reach : PmmState → List (Nat × Nat) → Prop where
  | init (mem_start mem_end kernel_end : Nat)
      (h : validPmmInit mem_start mem_end kernel_end) :
      Reach (pmm_init mem_start mem_end kernel_end) []
  | alloc {s held} (o : Nat) {s2 : PmmState} {a : Nat} (hr : Reach s held)
      (he : pmm_alloc_pages s o = (s2, a)) (ha : a ≠ 0) :
      Reach s2 ((a, o) :: held)
  | free {s held} {a o : Nat} (hr : Reach s held) (hm : (a, o) ∈ held) :
      Reach (pmm_free_pages s a o) (held.erase (a, o))

theorem NoPair_of_subset {l l2 : List Nat} {o : Nat} (hsub : ∀ x ∈ l2, x ∈ l)
    (h : NoPair l o) : NoPair l2 o := by
  intro e he hmem
  exact h e (hsub e he) (hsub _ hmem)

/-- What a successful findOrder means: the chosen order fits and is
    aligned, and no larger candidate order both fits and is aligned. -/
theorem findOrder_spec : ∀ (top rem cur o : Nat), findOrder rem cur top = some o →
    o ≤ top ∧ blockSize o ≤ rem ∧ cur % blockSize o = 0 ∧
      ∀ j, o < j → j ≤ top → ¬(blockSize j ≤ rem ∧ cur % blockSize j = 0) := by
  intro top
  induction top with
  | zero =>
    intro rem cur o h
    simp only [findOrder] at h
    split at h
    · rename_i hc
      cases h
      exact ⟨Nat.le_refl 0, hc.1, hc.2, fun j hj hj2 => by omega⟩
    · cases h
  | succ t ih =>
    intro rem cur o h
    simp only [findOrder] at h
    split at h
    · rename_i hc
      cases h
      exact ⟨Nat.le_refl _, hc.1, hc.2, fun j hj hj2 => by omega⟩
    · rename_i hc
      obtain ⟨h1, h2, h3, h4⟩ := ih rem cur o h
      refine ⟨Nat.le_succ_of_le h1, h2, h3, fun j hj hj2 => ?_⟩
      rcases Nat.lt_or_ge j (t + 1) with hlt | hge
      · exact h4 j hj (by omega)
      · have : j = t + 1 := by omega
        subst this
        exact hc
      
/-- Invariant of the pmm_init cursor loop.  Entries are aligned, inside
    [availStart, availEnd], below the cursor; an entry of order o < 10
    that is aligned to the next order size was only emitted because the
    next order did not fit, so its parent block overhangs availEnd; and no
    two entries of an order below the maximum are buddies. -/
theorem init_loop_inv (availStart availEnd : Nat) :
    ∀ (fuel current : Nat) (L : List (List Nat)) (fp : Nat),
    availStart ≤ current →
    L.length = 11 →
    (∀ o, o ≤ PMM_MAX_ORDER → ∀ e ∈ getFL L o,
        e % blockSize o = 0 ∧ availStart ≤ e ∧ e + blockSize o ≤ current ∧
          e + blockSize o ≤ availEnd) →
    (∀ o, o < PMM_MAX_ORDER → ∀ e ∈ getFL L o,
        e % blockSize (o + 1) = 0 → availEnd < e + blockSize (o + 1)) →
    (∀ o, o < PMM_MAX_ORDER → NoPair (getFL L o) o) →
    (init_loop availEnd fuel current L fp).1.length = 11 ∧
    (∀ o, o ≤ PMM_MAX_ORDER → ∀ e ∈ getFL (init_loop availEnd fuel current L fp).1 o,
        e % blockSize o = 0 ∧ availStart ≤ e ∧ e + blockSize o ≤ availEnd) ∧
    (∀ o, o < PMM_MAX_ORDER → NoPair (getFL (init_loop availEnd fuel current L fp).1 o) o) := by
  intro fuel
  induction fuel with
  | zero =>
    intro current L fp _ hlen hent _ hnp
    refine ⟨hlen, ?_, hnp⟩
    intro o ho e he
    obtain ⟨h1, h2, _, h4⟩ := hent o ho e he
    exact ⟨h1, h2, h4⟩
  | succ f ih =>
    intro current L fp hcur hlen hent hb hnp
    by_cases hlt : current < availEnd
    · simp only [init_loop, if_pos hlt]
      cases hfo : findOrder (availEnd - current) current PMM_MAX_ORDER with
      | none =>
        apply ih (current + PAGE_SIZE) L fp (by omega) hlen
        · intro o ho e he
          obtain ⟨h1, h2, h3, h4⟩ := hent o ho e he
          exact ⟨h1, h2, by omega, h4⟩
        · exact hb
        · exact hnp
      | some o =>
        obtain ⟨hotop, hofit, hoal, homax⟩ := findOrder_spec _ _ _ _ hfo
        have hoL : o < L.length := by rw [hlen]; simp [PMM_MAX_ORDER] at hotop; omega
        have hfit : current + blockSize o ≤ availEnd := by omega
        have hself := getFL_add_self L current o hoL
        -- facts about the buddy of the new entry (below the top order)
        have hnotin : o < PMM_MAX_ORDER → (current ^^^ blockSize o) ∉ getFL L o := by
          intro ho10 hmem
          obtain ⟨m, hcase⟩ := buddy_spec o current hoal
          rcases hcase with ⟨hcur2, hbud⟩ | ⟨hcur2, hbud⟩
          · -- current is the even half: the buddy lies above the cursor
            obtain ⟨_, _, hle, _⟩ := hent o hotop _ hmem
            rw [hbud] at hle hmem
            have : (2 * m + 1) * blockSize o = current + blockSize o := by
              rw [hcur2]; ring
            rw [this] at hle
            have := blockSize_pos o
            omega
          · -- current is the odd half: the even buddy was only emitted
            -- because its parent overhangs availEnd, contradicting that
            -- the current block fits
            have hbal : (current ^^^ blockSize o) % blockSize (o + 1) = 0 := by
              have hh : 2 * m * blockSize o = (2 * blockSize o) * m := by ring
              rw [hbud, blockSize_succ, hh]
              exact Nat.mul_mod_right _ _
            have hover := hb o ho10 _ hmem hbal
            rw [hbud, blockSize_succ] at hover
            have : 2 * m * blockSize o + 2 * blockSize o = current + blockSize o := by
              rw [hcur2]; ring
            omega
        apply ih (current + blockSize o) (add_to_free_list L current o) (wadd fp (1 <<< o))
          (by have := blockSize_pos o; omega) (by rw [length_add_to_free_list]; exact hlen)
        · -- entry facts
          intro o2 ho2 e he
          by_cases heq : o = o2
          · subst heq
            rw [hself] at he
            rcases List.mem_cons.1 he with rfl | hold
            · exact ⟨hoal, hcur, Nat.le_refl _, hfit⟩
            · obtain ⟨h1, h2, h3, h4⟩ := hent o ho2 e hold
              have := blockSize_pos o
              exact ⟨h1, h2, by omega, h4⟩
          · rw [getFL_add_ne L current o o2 heq] at he
            obtain ⟨h1, h2, h3, h4⟩ := hent o2 ho2 e he
            have := blockSize_pos o
            exact ⟨h1, h2, by omega, h4⟩
        · -- overhang facts for next-order-aligned entries
          intro o2 ho2 e he heal
          by_cases heq : o = o2
          · subst heq
            rw [hself] at he
            rcases List.mem_cons.1 he with rfl | hold
            · have := homax (o + 1) (by omega) (by simp [PMM_MAX_ORDER] at ho2 ⊢; omega)
              rw [Classical.not_and_iff_or_not_not] at this
              rcases this with hnf | hnal
              · omega
              · exact absurd heal hnal
            · exact hb o ho2 e hold heal
          · rw [getFL_add_ne L current o o2 heq] at he
            exact hb o2 ho2 e he heal
        · -- no buddy pairs below the maximum order
          intro o2 ho2
          by_cases heq : o = o2
          · subst heq
            rw [hself]
            intro e he hmem
            rcases List.mem_cons.1 he with rfl | hold
            · rcases List.mem_cons.1 hmem with habs | hmem2
              · exact xor_ne_self (blockSize_pos o) habs
              · exact hnotin ho2 hmem2
            · rcases List.mem_cons.1 hmem with habs | hmem2
              · -- e's buddy equals the new cursor entry: then e is the
                -- cursor's buddy, which is not in the old list
                apply hnotin ho2
                rw [← habs, xor_cancel]
                exact hold
              · exact hnp o ho2 e hold hmem2
          · rw [getFL_add_ne L current o o2 heq]
            exact hnp o2 ho2
    · simp only [init_loop, if_neg hlt]
      refine ⟨hlen, ?_, hnp⟩
      intro o ho e he
      obtain ⟨h1, h2, _, h4⟩ := hent o ho e he
      exact ⟨h1, h2, h4⟩

theorem page_align_up_ge (x : Nat) (hx : x + 4095 < U64) : x ≤ page_align_up x := by
  unfold page_align_up
  rw [Nat.mod_eq_of_lt hx]
  omega

theorem page_align_up_mono {a b : Nat} (hab : a ≤ b) (hb : b + 4095 < U64) :
    page_align_up a ≤ page_align_up b := by
  unfold page_align_up
  rw [Nat.mod_eq_of_lt (by omega), Nat.mod_eq_of_lt hb]
  have := Nat.div_le_div_right (c := 4096) (by omega : a + 4095 ≤ b + 4095)
  omega

/-- pmm_init establishes the allocator invariant (with nothing held). -/
theorem pmm_init_inv {a b c : Nat} (h : validPmmInit a b c) :
    PmmInv (pmm_init a b c) [] := by
  obtain ⟨h0, h1, h2, h3⟩ := h
  have key := init_loop_inv (page_align_up c) (page_align_down b)
      ((page_align_down b - page_align_up c) / PAGE_SIZE + 1) (page_align_up c)
      (List.replicate 11 []) 0 (Nat.le_refl _) (by simp)
      (by intro o ho e he; rw [getFL_replicate] at he; cases he)
      (by intro o ho e he; rw [getFL_replicate] at he; cases he)
      (by intro o ho e he hmem; rw [getFL_replicate] at he; cases he)
  obtain ⟨k1, k2, k3⟩ := key
  have hmsle : page_align_up a ≤ page_align_up c := page_align_up_mono h1 (by omega)
  refine ⟨rfl, ?_, k1, ?_, k3, by intro p hp; cases hp⟩
  · show 0 < page_align_up a
    have := page_align_up_ge a (by omega)
    omega
  · intro o ho e he
    obtain ⟨e1, e2, e3⟩ := k2 o ho e he
    rw [show (pmm_init a b c).memStart = page_align_up a from rfl,
        show (pmm_init a b c).memEnd = page_align_down b from rfl]
    exact ⟨e1, by omega, e3⟩

theorem blockSize_mono {o o2 : Nat} (h : o ≤ o2) : blockSize o ≤ blockSize o2 :=
  Nat.le_of_dvd (blockSize_pos o2) (blockSize_dvd o o2 h)

/-- What a successful scan of pmm_alloc_pages means: the first nonempty
    free list at or above the requested order. -/
theorem find_nonempty_spec (L : List (List Nat)) :
    ∀ (k co co2 : Nat), find_nonempty L k co = some co2 →
      co ≤ co2 ∧ co2 < co + k ∧ getFL L co2 ≠ [] ∧
        ∀ j, co ≤ j → j < co2 → getFL L j = [] := by
  intro k
  induction k with
  | zero => intro co co2 h; cases h
  | succ m ih =>
    intro co co2 h
    simp only [find_nonempty] at h
    split at h
    · rename_i hne
      cases h
      exact ⟨Nat.le_refl _, by omega, hne, fun j h1 h2 => by omega⟩
    · rename_i hemp
      obtain ⟨h1, h2, h3, h4⟩ := ih (co + 1) co2 h
      refine ⟨by omega, by omega, h3, fun j hj1 hj2 => ?_⟩
      rcases Nat.eq_or_lt_of_le hj1 with heq | hlt
      · rw [← heq]
        exact not_not.mp hemp
      · exact h4 j hlt hj2

/-- The split loop of pmm_alloc_pages preserves the free-list invariants:
    it only pushes upper buddy halves onto lists that the scan found
    empty. -/
theorem split_loop_inv (ms me addr : Nat) :
    ∀ (k co : Nat) (L : List (List Nat)),
    k ≤ co → co ≤ PMM_MAX_ORDER →
    L.length = 11 →
    (∀ j, co - k ≤ j → j < co → getFL L j = []) →
    addr % blockSize co = 0 → ms ≤ addr → addr + blockSize co ≤ me →
    (∀ o, o ≤ PMM_MAX_ORDER → ∀ e ∈ getFL L o, entryOK ms me o e) →
    (∀ o, o < PMM_MAX_ORDER → NoPair (getFL L o) o) →
    (split_loop addr k co L).length = 11 ∧
    (∀ o, o ≤ PMM_MAX_ORDER → ∀ e ∈ getFL (split_loop addr k co L) o, entryOK ms me o e) ∧
    (∀ o, o < PMM_MAX_ORDER → NoPair (getFL (split_loop addr k co L) o) o) := by
  intro k
  induction k with
  | zero =>
    intro co L _ _ hlen _ _ _ _ hent hnp
    exact ⟨hlen, hent, hnp⟩
  | succ m ih =>
    intro co L hk hco hlen hemp hal hms hme hent hnp
    have hco1 : 1 ≤ co := by omega
    have hcoL : co - 1 < L.length := by rw [hlen]; simp [PMM_MAX_ORDER] at hco; omega
    have hempty : getFL L (co - 1) = [] := hemp (co - 1) (by omega) (by omega)
    have hbs : blockSize (co - 1 + 1) = 2 * blockSize (co - 1) := blockSize_succ _
    have hco1e : co - 1 + 1 = co := by omega
    rw [hco1e] at hbs
    have hself : getFL (add_to_free_list L (addr + blockSize (co - 1)) (co - 1)) (co - 1)
        = [addr + blockSize (co - 1)] := by
      rw [getFL_add_self L _ _ hcoL, hempty]
    simp only [split_loop]
    apply ih (co - 1) _ (by omega) (by omega)
      (by rw [length_add_to_free_list]; exact hlen)
    · intro j hj1 hj2
      rw [getFL_add_ne L _ (co - 1) j (by omega)]
      exact hemp j (by omega) (by omega)
    · exact mod_blockSize_of_le (by omega) hal
    · exact hms
    · have := blockSize_mono (show co - 1 ≤ co by omega)
      omega
    · intro o ho e he
      by_cases heq : co - 1 = o
      · subst heq
        rw [hself] at he
        rcases List.mem_cons.1 he with rfl | habs
        · refine ⟨?_, by omega, by omega⟩
          rw [Nat.add_mod_right]
          exact mod_blockSize_of_le (by omega) hal
        · cases habs
      · rw [getFL_add_ne L _ (co - 1) o heq] at he
        exact hent o ho e he
    · intro o ho
      by_cases heq : co - 1 = o
      · subst heq
        rw [hself]
        intro e he hmem
        rcases List.mem_cons.1 he with rfl | habs
        · rcases List.mem_cons.1 hmem with habs2 | habs2
          · exact xor_ne_self (blockSize_pos _) habs2
          · cases habs2
        · cases habs
      · rw [getFL_add_ne L _ (co - 1) o heq]
        exact hnp o ho

/-- A successful pmm_alloc_pages call returns a well-formed block of the
    requested order and preserves the allocator invariant, with the new
    block recorded as held. -/
theorem pmm_alloc_success {s : PmmState} {held : List (Nat × Nat)} (inv : PmmInv s held)
    (o : Nat) {s2 : PmmState} {a : Nat}
    (he : pmm_alloc_pages s o = (s2, a)) (ha : a ≠ 0) :
    o ≤ PMM_MAX_ORDER ∧ entryOK s.memStart s.memEnd o a ∧ PmmInv s2 ((a, o) :: held) := by
  have hM : PMM_MAX_ORDER = 10 := rfl
  simp only [pmm_alloc_pages] at he
  split at he
  · rename_i hc
    rw [inv.hinit] at hc
    cases hc
  split at he
  · injection he with h1 h2
    exact absurd h2.symm ha
  rename_i hord
  split at he
  · injection he with h1 h2
    exact absurd h2.symm ha
  rename_i co hfind
  obtain ⟨hco1, hco2, hcone, hcoemp⟩ := find_nonempty_spec s.freeLists _ o co hfind
  have hcoM : co ≤ PMM_MAX_ORDER := by omega
  have hcoL : co < s.freeLists.length := by rw [inv.hlen]; omega
  cases hl : getFL s.freeLists co with
  | nil => exact absurd hl hcone
  | cons h0 t =>
    have hrem : remove_from_free_list s.freeLists co = (h0, s.freeLists.set co t) := by
      simp [remove_from_free_list, hl]
    rw [hrem] at he
    dsimp only at he
    injection he with hs2 ha2
    subst hs2
    subst ha2
    have haent := inv.hentries co hcoM h0 (by rw [hl]; exact List.mem_cons_self h0 t)
    obtain ⟨hal, hams, hame⟩ := haent
    have hL1len : (s.freeLists.set co t).length = 11 := by
      rw [List.length_set]; exact inv.hlen
    have hL1get : ∀ j, j ≠ co → getFL (s.freeLists.set co t) j = getFL s.freeLists j := by
      intro j hj
      exact getFL_set_ne s.freeLists co j t (fun hh => hj hh.symm)
    have hL1co : getFL (s.freeLists.set co t) co = t := getFL_set_self s.freeLists co t hcoL
    have hL1sub : ∀ j, ∀ e ∈ getFL (s.freeLists.set co t) j, e ∈ getFL s.freeLists j := by
      intro j e hj
      by_cases hjco : j = co
      · subst hjco
        rw [hL1co] at hj
        rw [hl]
        exact List.mem_cons_of_mem _ hj
      · rw [hL1get j hjco] at hj
        exact hj
    have hsplit := split_loop_inv s.memStart s.memEnd h0 (co - o) co (s.freeLists.set co t)
      (by omega) hcoM hL1len
      (by
        intro j hj1 hj2
        rw [hL1get j (by omega)]
        exact hcoemp j (by omega) hj2)
      hal hams hame
      (by
        intro o2 ho2 e he2
        exact inv.hentries o2 ho2 e (hL1sub o2 e he2))
      (by
        intro o2 ho2
        exact NoPair_of_subset (hL1sub o2) (inv.hnopair o2 ho2))
    obtain ⟨k1, k2, k3⟩ := hsplit
    have hofacts : entryOK s.memStart s.memEnd o h0 :=
      ⟨mod_blockSize_of_le hco1 hal, hams, by have := blockSize_mono hco1; omega⟩
    refine ⟨by omega, hofacts, ?_⟩
    exact
      { hinit := inv.hinit
        hms := inv.hms
        hlen := k1
        hentries := k2
        hnopair := k3
        hheld := by
          intro p hp
          rcases List.mem_cons.1 hp with rfl | hold
          · exact ⟨by omega, hofacts⟩
          · exact inv.hheld p hold }

/-- Invariant of the coalescing loop of pmm_free_pages.  Note what is NOT
    claimed: the loop pops the head of the order's free list, not
    necessarily the buddy it just located, so nothing relates the removed
    block to the buddy; only the well-formedness facts survive. -/
theorem merge_loop_inv (ms me : Nat) :
    ∀ (k order addr : Nat) (L : List (List Nat)),
    order + k ≤ PMM_MAX_ORDER →
    L.length = 11 →
    (∀ o, o ≤ PMM_MAX_ORDER → ∀ e ∈ getFL L o, entryOK ms me o e) →
    (∀ o, o < PMM_MAX_ORDER → NoPair (getFL L o) o) →
    addr % blockSize order = 0 → ms ≤ addr → addr + blockSize order ≤ me →
    (merge_loop ms me k addr order L).2.2.length = 11 ∧
    (∀ o, o ≤ PMM_MAX_ORDER →
      ∀ e ∈ getFL (merge_loop ms me k addr order L).2.2 o, entryOK ms me o e) ∧
    (∀ o, o < PMM_MAX_ORDER → NoPair (getFL (merge_loop ms me k addr order L).2.2 o) o) ∧
    order ≤ (merge_loop ms me k addr order L).2.1 ∧
    (merge_loop ms me k addr order L).2.1 ≤ order + k ∧
    (merge_loop ms me k addr order L).1 % blockSize (merge_loop ms me k addr order L).2.1 = 0 ∧
    ms ≤ (merge_loop ms me k addr order L).1 ∧
    (merge_loop ms me k addr order L).1 + blockSize (merge_loop ms me k addr order L).2.1 ≤ me ∧
    ((merge_loop ms me k addr order L).2.1 < order + k →
      ((merge_loop ms me k addr order L).1 ^^^ blockSize (merge_loop ms me k addr order L).2.1) < ms ∨
      me ≤ ((merge_loop ms me k addr order L).1 ^^^ blockSize (merge_loop ms me k addr order L).2.1) ∨
      ((merge_loop ms me k addr order L).1 ^^^ blockSize (merge_loop ms me k addr order L).2.1) ∉
        getFL (merge_loop ms me k addr order L).2.2 (merge_loop ms me k addr order L).2.1) := by
  intro k
  induction k with
  | zero =>
    intro order addr L _ hlen hent hnp hal hms2 hme2
    simp only [merge_loop]
    exact ⟨hlen, hent, hnp, Nat.le_refl _, Nat.le_refl _, hal, hms2, hme2,
      fun h => absurd h (by omega)⟩
  | succ m ih =>
    intro order addr L hok hlen hent hnp hal hms2 hme2
    have hM : PMM_MAX_ORDER = 10 := rfl
    simp only [merge_loop]
    split
    · rename_i hguard
      dsimp only
      refine ⟨hlen, hent, hnp, Nat.le_refl _, by omega, hal, hms2, hme2, ?_⟩
      intro _
      rcases hguard with hg | hg | hg
      · exact Or.inl hg
      · exact Or.inr (Or.inl hg)
      · refine Or.inr (Or.inr ?_)
        simpa [is_in_free_list] using hg
    · rename_i hguard
      have hrange : ¬ (get_buddy_addr addr order < ms) ∧ ¬ (me ≤ get_buddy_addr addr order) ∧
          get_buddy_addr addr order ∈ getFL L order := by
        constructor
        · intro hx; exact hguard (Or.inl hx)
        constructor
        · intro hx; exact hguard (Or.inr (Or.inl hx))
        · by_contra hx
          exact hguard (Or.inr (Or.inr (by simpa [is_in_free_list] using hx)))
      obtain ⟨hbms, hbme, hbmem⟩ := hrange
      have horder : order ≤ PMM_MAX_ORDER := by omega
      have hbent := hent order horder _ hbmem
      obtain ⟨_, _, hbend⟩ := hbent
      -- the popped head leaves a sublist, so the list invariants survive
      have hLnil : getFL L order ≠ [] := by
        intro hx; rw [hx] at hbmem; cases hbmem
      have hsub : ∀ j, ∀ e ∈ getFL (remove_from_free_list L order).2 j, e ∈ getFL L j := by
        intro j e hj
        cases hl2 : getFL L order with
        | nil => exact absurd hl2 hLnil
        | cons h1 t =>
          rw [remove_from_free_list, hl2] at hj
          dsimp only at hj
          by_cases hjo : j = order
          · subst hjo
            have hjL : j < L.length := by rw [hlen]; omega
            rw [getFL_set_self L j t hjL] at hj
            rw [hl2]
            exact List.mem_cons_of_mem _ hj
          · rw [getFL_set_ne L order j t (fun hh => hjo hh.symm)] at hj
            exact hj
      have hlen2 : (remove_from_free_list L order).2.length = 11 := by
        cases hl2 : getFL L order with
        | nil => exact absurd hl2 hLnil
        | cons h1 t =>
          rw [remove_from_free_list, hl2]
          dsimp only
          rw [List.length_set]
          exact hlen
      -- the merged block: the lower of the two buddies
      obtain ⟨mm, hcase⟩ := buddy_spec order addr hal
      have hb2 : blockSize (order + 1) = 2 * blockSize order := blockSize_succ order
      have hbpos := blockSize_pos order
      have hmerge : min addr (get_buddy_addr addr order) % blockSize (order + 1) = 0 ∧
          ms ≤ min addr (get_buddy_addr addr order) ∧
          min addr (get_buddy_addr addr order) + blockSize (order + 1) ≤ me := by
        rcases hcase with ⟨ha1, ha2⟩ | ⟨ha1, ha2⟩
        · -- addr is the even half, the buddy is above it
          have hmin : min addr (get_buddy_addr addr order) = addr := by
            rw [get_buddy_addr, ha2]
            have : addr < (2 * mm + 1) * blockSize order := by rw [ha1]; nlinarith
            omega
          rw [hmin]
          refine ⟨?_, hms2, ?_⟩
          · rw [ha1, hb2]
            have : 2 * mm * blockSize order = (2 * blockSize order) * mm := by ring
            rw [this]
            exact Nat.mul_mod_right _ _
          · rw [get_buddy_addr] at hbend
            rw [ha2] at hbend
            have h1 : (2 * mm + 1) * blockSize order + blockSize order
                = addr + 2 * blockSize order := by rw [ha1]; ring
            omega
        · -- addr is the odd half, the buddy is below it
          have hmin : min addr (get_buddy_addr addr order) = get_buddy_addr addr order := by
            rw [get_buddy_addr, ha2]
            have : 2 * mm * blockSize order < addr := by rw [ha1]; nlinarith
            omega
          rw [hmin, get_buddy_addr, ha2]
          refine ⟨?_, by rw [get_buddy_addr, ha2] at hbms; omega, ?_⟩
          · rw [hb2]
            have : 2 * mm * blockSize order = (2 * blockSize order) * mm := by ring
            rw [this]
            exact Nat.mul_mod_right _ _
          · have h1 : 2 * mm * blockSize order + 2 * blockSize order
                = addr + blockSize order := by rw [ha1]; ring
            omega
      obtain ⟨hm1, hm2, hm3⟩ := hmerge
      have hres := ih (order + 1) (min addr (get_buddy_addr addr order))
        (remove_from_free_list L order).2 (by omega) hlen2
        (by intro o2 ho2 e he2; exact hent o2 ho2 e (hsub o2 e he2))
        (by intro o2 ho2; exact NoPair_of_subset (hsub o2) (hnp o2 ho2))
        hm1 hm2 hm3
      obtain ⟨r1, r2, r3, r4, r5, r6, r7, r8, r9⟩ := hres
      exact ⟨r1, r2, r3, by omega, by omega, r6, r7, r8, fun hlt => r9 (by omega)⟩

/-- Freeing a held block preserves the allocator invariant. -/
theorem pmm_free_pages_inv {s : PmmState} {held : List (Nat × Nat)} {a o : Nat}
    (inv : PmmInv s held) (hm : (a, o) ∈ held) :
    PmmInv (pmm_free_pages s a o) (held.erase (a, o)) := by
  have hM : PMM_MAX_ORDER = 10 := rfl
  have hw := inv.hheld (a, o) hm
  simp only [heldOK, entryOK] at hw
  obtain ⟨hoM, hal, hams, hame⟩ := hw
  have hbpos := blockSize_pos o
  have heraseOK : ∀ p ∈ held.erase (a, o), heldOK s.memStart s.memEnd p := by
    intro p hp
    exact inv.hheld p (List.mem_of_mem_erase hp)
  unfold pmm_free_pages
  rw [inv.hinit]
  rw [if_neg (by simp), if_neg (by omega), if_neg (by omega),
      if_neg (by simp only [ne_eq, not_not]; exact hal)]
  dsimp only
  have hmf := merge_loop_inv s.memStart s.memEnd (PMM_MAX_ORDER - o) o a s.freeLists
    (by omega) inv.hlen inv.hentries inv.hnopair hal hams hame
  obtain ⟨r1, r2, r3, r4, r5, r6, r7, r8, r9⟩ := hmf
  set r := merge_loop s.memStart s.memEnd (PMM_MAX_ORDER - o) a o s.freeLists with hr
  have hfoM : r.2.1 ≤ PMM_MAX_ORDER := by omega
  have hfoL : r.2.1 < r.2.2.length := by rw [r1]; omega
  have hselfadd := getFL_add_self r.2.2 r.1 r.2.1 hfoL
  refine
    { hinit := rfl
      hms := inv.hms
      hlen := by rw [length_add_to_free_list]; exact r1
      hentries := ?_
      hnopair := ?_
      hheld := heraseOK }
  · intro o2 ho2 e he2
    by_cases heq : r.2.1 = o2
    · subst heq
      rw [hselfadd] at he2
      rcases List.mem_cons.1 he2 with rfl | hold
      · exact ⟨r6, r7, r8⟩
      · exact r2 _ ho2 e hold
    · rw [getFL_add_ne r.2.2 r.1 r.2.1 o2 heq] at he2
      exact r2 o2 ho2 e he2
  · intro o2 ho2
    by_cases heq : r.2.1 = o2
    · subst heq
      rw [hselfadd]
      have hex := r9 (by omega)
      have hnotin : (r.1 ^^^ blockSize r.2.1) ∉ getFL r.2.2 r.2.1 := by
        rcases hex with hx | hx | hx
        · intro hmem
          obtain ⟨_, hge, _⟩ := r2 _ (Nat.le_of_lt ho2) _ hmem
          omega
        · intro hmem
          obtain ⟨_, _, hlt⟩ := r2 _ (Nat.le_of_lt ho2) _ hmem
          have := blockSize_pos r.2.1
          omega
        · exact hx
      intro e he2 hmem
      rcases List.mem_cons.1 he2 with rfl | hold
      · rcases List.mem_cons.1 hmem with habs | habs
        · exact xor_ne_self (blockSize_pos _) habs
        · exact hnotin habs
      · rcases List.mem_cons.1 hmem with habs | habs
        · apply hnotin
          rw [← habs, xor_cancel]
          exact hold
        · exact r3 _ ho2 e hold habs
    · rw [getFL_add_ne r.2.2 r.1 r.2.1 o2 heq]
      exact r3 o2 ho2

/-- Every reachable state of the page allocator satisfies the invariant. -/
theorem reach_inv {s : PmmState} {held : List (Nat × Nat)} (h : Reach s held) :
    PmmInv s held := by
  induction h with
  | init a b c hv => exact pmm_init_inv hv
  | alloc o hr he ha ih => exact (pmm_alloc_success ih o he ha).2.2
  | free hr hm ih => exact pmm_free_pages_inv ih hm

/-! Heap invariant: no two adjacent blocks are both free. -/

/-- No two adjacent blocks of the list are both free. -/
def NoAdjFree : List HBlock → Prop
  | [] => True
  | [_] => True
  | a :: b :: t => ¬(a.isFree = true ∧ b.isFree = true) ∧ NoAdjFree (b :: t)

theorem merge_aux_head : ∀ (l : List HBlock) (b : HBlock),
    ∃ c t, merge_aux b l = c :: t ∧ c.isFree = b.isFree := by
  intro l
  induction l with
  | nil => intro b; exact ⟨b, [], rfl, rfl⟩
  | cons c rest ih =>
    intro b
    simp only [merge_aux]
    split
    · rename_i hcf
      obtain ⟨d, t, hd, hf⟩ := ih ⟨b.size + c.size, true⟩
      exact ⟨d, t, hd, by rw [hf]; exact hcf.1.symm⟩
    · exact ⟨b, merge_aux c rest, rfl, rfl⟩

/-- The coalescing pass of merge_free_blocks leaves no adjacent pair of
    free blocks, whatever list it starts from. -/
theorem merge_aux_noadj : ∀ (l : List HBlock) (b : HBlock), NoAdjFree (merge_aux b l) := by
  intro l
  induction l with
  | nil => intro b; simp [merge_aux, NoAdjFree]
  | cons c rest ih =>
    intro b
    simp only [merge_aux]
    split
    · exact ih _
    · rename_i hnf
      obtain ⟨d, t, hd, hf⟩ := merge_aux_head rest c
      rw [hd]
      show ¬(b.isFree = true ∧ d.isFree = true) ∧ NoAdjFree (d :: t)
      constructor
      · intro ⟨h1, h2⟩
        rw [hf] at h2
        exact hnf ⟨h1, h2⟩
      · rw [← hd]
        exact ih c

theorem merge_free_blocks_noadj (l : List HBlock) : NoAdjFree (merge_free_blocks l) := by
  cases l with
  | nil => simp [merge_free_blocks, NoAdjFree]
  | cons b rest => exact merge_aux_noadj rest b

theorem alloc_blocks_shape : ∀ (l : List HBlock) (sz : Nat) (l2 : List HBlock) (off : Nat),
    alloc_blocks sz l = some (l2, off) →
    ∃ h t h2 t2, l = h :: t ∧ l2 = h2 :: t2 ∧ (h2.isFree = true → h.isFree = true) := by
  intro l
  induction l with
  | nil => intro sz l2 off h; cases h
  | cons b rest ih =>
    intro sz l2 off h
    simp only [alloc_blocks] at h
    split at h
    · split at h
      · injection h with h1
        injection h1 with h2 h3
        exact ⟨b, rest, _, _, rfl, h2.symm, by intro hx; cases hx⟩
      · injection h with h1
        injection h1 with h2 h3
        exact ⟨b, rest, _, _, rfl, h2.symm, by intro hx; cases hx⟩
    · split at h
      · cases h
      · rename_i la oa hp
        injection h with h1
        injection h1 with h2 h3
        exact ⟨b, rest, b, la, rfl, h2.symm, fun hx => hx⟩

/-- The first-fit allocation walk preserves the adjacency invariant: the
    found block becomes used, and the free remainder of a split sits next
    to a block that was known not to be free. -/
theorem alloc_blocks_noadj : ∀ (l : List HBlock) (sz : Nat) (l2 : List HBlock) (off : Nat),
    NoAdjFree l → alloc_blocks sz l = some (l2, off) → NoAdjFree l2 := by
  intro l
  induction l with
  | nil => intro sz l2 off _ h; cases h
  | cons b rest ih =>
    intro sz l2 off hinv h
    have htail : NoAdjFree rest := by
      cases rest with
      | nil => trivial
      | cons c t => exact hinv.2
    simp only [alloc_blocks] at h
    split at h
    · rename_i hfit
      split at h
      · injection h with h1
        injection h1 with h2 h3
        subst h2
        cases rest with
        | nil =>
          refine ⟨?_, trivial⟩
          intro ⟨h1, _⟩
          cases h1
        | cons c t =>
          refine ⟨?_, ?_, hinv.2⟩
          · intro ⟨h1, _⟩
            cases h1
          · intro ⟨_, h2⟩
            exact hinv.1 ⟨hfit.1, h2⟩
      · injection h with h1
        injection h1 with h2 h3
        subst h2
        cases rest with
        | nil => trivial
        | cons c t =>
          refine ⟨?_, hinv.2⟩
          intro ⟨h1, _⟩
          cases h1
    · rename_i hmiss
      split at h
      · cases h
      · rename_i la oa hp
        injection h with h1
        injection h1 with h2 h3
        subst h2
        obtain ⟨hh, ht, hd2, t2, hrest, hl2, himp⟩ := alloc_blocks_shape rest sz la oa hp
        subst hrest
        rw [hl2]
        refine ⟨?_, ?_⟩
        · intro ⟨hb, hfree2⟩
          exact hinv.1 ⟨hb, himp hfree2⟩
        · rw [← hl2]
          exact ih sz la oa hinv.2 hp

theorem kmalloc_noadj (s : HeapState) (n : Nat) (h : NoAdjFree s.blocks) :
    NoAdjFree (kmalloc s n).1.blocks := by
  unfold kmalloc
  split
  · exact h
  split
  · exact h
  split
  · exact h
  · rename_i la oa hp
    dsimp only
    exact alloc_blocks_noadj s.blocks _ la oa h hp

theorem kfree_noadj (s : HeapState) (p : Nat) (h : NoAdjFree s.blocks) :
    NoAdjFree (kfree s p).1.blocks := by
  unfold kfree
  dsimp only
  split
  · exact h
  split
  · exact h
  split
  · exact h
  split
  · exact h
  split
  · exact h
  · dsimp only
    exact merge_free_blocks_noadj _

theorem kcalloc_fst (s : HeapState) (n m : Nat) :
    (kcalloc s n m).1 = (kmalloc s (n * m % U64)).1 := by
  unfold kcalloc
  cases hp : (kmalloc s (n * m % U64)).2 with
  | none => simp [hp]
  | some a => simp [hp]

theorem krealloc_noadj (s : HeapState) (p n : Nat) (h : NoAdjFree s.blocks) :
    NoAdjFree (krealloc s p n).1.blocks := by
  unfold krealloc
  split
  · exact kmalloc_noadj s n h
  split
  · exact kfree_noadj s p h
  split
  · exact h
  · split
    · exact h
    · dsimp only
      split
      · rename_i hsome
        exact kmalloc_noadj s n h
      · rename_i a hsome
        dsimp only
        exact kfree_noadj (kmalloc s n).1 p (kmalloc_noadj s n h)

/-- Heap states reachable from heap_init through any sequence of kmalloc,
    kcalloc, kfree and krealloc calls. -/
inductive ReachHeap : HeapState → Prop where
  | init (start size : Nat) : ReachHeap (heap_init start size)
  | mallocStep {s} (n : Nat) (h : ReachHeap s) : ReachHeap (kmalloc s n).1
  | callocStep {s} (n m : Nat) (h : ReachHeap s) : ReachHeap (kcalloc s n m).1
  | freeStep {s} (p : Nat) (h : ReachHeap s) : ReachHeap (kfree s p).1
  | reallocStep {s} (p n : Nat) (h : ReachHeap s) : ReachHeap (krealloc s p n).1

/-- Every reachable heap state has no two adjacent free blocks. -/
theorem heap_reach_noadj {s : HeapState} (h : ReachHeap s) : NoAdjFree s.blocks := by
  induction h with
  | init start size => exact ⟨⟩
  | mallocStep n h ih => exact kmalloc_noadj _ n ih
  | callocStep n m h ih =>
    rw [kcalloc_fst]
    exact kmalloc_noadj _ _ ih
  | freeStep p h ih => exact kfree_noadj _ p ih
  | reallocStep p n h ih => exact krealloc_noadj _ p n ih

/-! Structure of the coalescing pass around a free block whose neighbors
    are used: the pass never touches such a block, and the blocks before
    it keep their total size, so its address survives. -/

theorem sumSizes_append (A B : List HBlock) : sumSizes (A ++ B) = sumSizes A + sumSizes B := by
  induction A with
  | nil => simp [sumSizes]
  | cons c t ih => simp [sumSizes, ih]; omega

theorem sumSizes_merge_aux : ∀ (l : List HBlock) (b : HBlock),
    sumSizes (merge_aux b l) = b.size + sumSizes l := by
  intro l
  induction l with
  | nil => intro b; simp [merge_aux, sumSizes]
  | cons c t ih =>
    intro b
    simp only [merge_aux]
    split
    · rw [ih]
      simp [sumSizes]
      omega
    · simp only [sumSizes, ih]

theorem merge_aux_positive : ∀ (l : List HBlock) (b : HBlock),
    0 < b.size → (∀ c ∈ l, 0 < c.size) → ∀ d ∈ merge_aux b l, 0 < d.size := by
  intro l
  induction l with
  | nil =>
    intro b hb _ d hd
    rcases List.mem_cons.1 hd with rfl | habs
    · exact hb
    · cases habs
  | cons c t ih =>
    intro b hb hl d hd
    simp only [merge_aux] at hd
    split at hd
    · refine ih _ ?_ (fun e he => hl e (List.mem_cons_of_mem c he)) d hd
      have := hl c (List.mem_cons_self c t)
      simp only
      omega
    · rcases List.mem_cons.1 hd with rfl | hmem
      · exact hb
      · exact ih c (hl c (List.mem_cons_self c t)) (fun e he => hl e (List.mem_cons_of_mem c he)) d hmem

/-- The cursor of merge_free_blocks passes a used block without merging
    across it: the pass distributes over a used separator. -/
theorem merge_aux_sep {u : HBlock} (hu : u.isFree = false) (zs : List HBlock) :
    ∀ (xs : List HBlock) (b : HBlock),
    merge_aux b (xs ++ u :: zs) = merge_aux b xs ++ merge_aux u zs := by
  intro xs
  induction xs with
  | nil =>
    intro b
    show merge_aux b (u :: zs) = merge_aux b [] ++ merge_aux u zs
    simp only [merge_aux, List.singleton_append]
    rw [if_neg]
    intro ⟨_, h2⟩
    rw [hu] at h2
    cases h2
  | cons c t ih =>
    intro b
    show merge_aux b (c :: (t ++ u :: zs)) = merge_aux b (c :: t) ++ merge_aux u zs
    simp only [merge_aux]
    split
    · exact ih _
    · rw [ih c]
      rfl

/-- A free block with a used block (or nothing) on each side survives the
    coalescing pass at the same byte offset. -/
theorem merge_decomp (X : List HBlock) (bf : HBlock) (Y : List HBlock)
    (hX : ∀ u, X.getLast? = some u → u.isFree = false)
    (hY : ∀ y, Y.head? = some y → y.isFree = false)
    (hpos : ∀ c ∈ X, 0 < c.size) :
    ∃ F T, merge_free_blocks (X ++ bf :: Y) = F ++ bf :: T ∧
      sumSizes F = sumSizes X ∧ (∀ c ∈ F, 0 < c.size) := by
  have hbfY : ∃ T, merge_aux bf Y = bf :: T := by
    cases Y with
    | nil => exact ⟨[], rfl⟩
    | cons y Y2 =>
      refine ⟨merge_aux y Y2, ?_⟩
      simp only [merge_aux]
      rw [if_neg]
      intro ⟨_, h2⟩
      rw [hY y rfl] at h2
      cases h2
  obtain ⟨T, hT⟩ := hbfY
  rcases List.eq_nil_or_concat X with rfl | ⟨X0, u, hXeq⟩
  · exact ⟨[], T, by simpa [merge_free_blocks] using hT, rfl, by intro c hc; cases hc⟩
  · rw [List.concat_eq_append] at hXeq
    subst hXeq
    have hu : u.isFree = false := hX u (by simp)
    have hstep : merge_aux u (bf :: Y) = u :: merge_aux bf Y := by
      simp only [merge_aux]
      rw [if_neg]
      intro ⟨h1, _⟩
      rw [hu] at h1
      cases h1
    cases X0 with
    | nil =>
      refine ⟨[u], T, ?_, by simp [sumSizes], ?_⟩
      · show merge_free_blocks (u :: (bf :: Y)) = [u] ++ bf :: T
        simp only [merge_free_blocks]
        rw [hstep, hT]
        rfl
      · intro c hc
        rcases List.mem_cons.1 hc with rfl | habs
        · exact hpos c (by simp)
        · cases habs
    | cons x X02 =>
      refine ⟨merge_aux x X02 ++ [u], T, ?_, ?_, ?_⟩
      · show merge_aux x ((X02 ++ [u]) ++ bf :: Y) = (merge_aux x X02 ++ [u]) ++ bf :: T
        have harr : (X02 ++ [u]) ++ bf :: Y = X02 ++ u :: (bf :: Y) := by simp
        rw [harr, merge_aux_sep hu (bf :: Y) X02 x, hstep, hT]
        simp
      · rw [sumSizes_append, sumSizes_merge_aux]
        simp [sumSizes, sumSizes_append]
        omega
      · intro c hc
        rcases List.mem_append.1 hc with hmem | hmem
        · refine merge_aux_positive X02 x (hpos x (by simp)) ?_ c hmem
          intro e he
          refine hpos e ?_
          simp [he]
        · rcases List.mem_cons.1 hmem with rfl | habs
          · exact hpos c (by simp)
          · cases habs

theorem find_block_prefix : ∀ (F : List HBlock) (base : Nat) (b : HBlock) (G : List HBlock),
    (∀ c ∈ F, 0 < c.size) →
    find_block (base + sumSizes F) base (F ++ b :: G) = some (F.length, b) := by
  intro F
  induction F with
  | nil =>
    intro base b G _
    simp [find_block, sumSizes]
  | cons c F2 ih =>
    intro base b G hpos
    have hc : 0 < c.size := hpos c (by simp)
    show find_block (base + sumSizes (c :: F2)) base (c :: (F2 ++ b :: G))
        = some (F2.length + 1, b)
    simp only [find_block]
    rw [if_neg (by simp [sumSizes]; omega)]
    have harr : base + sumSizes (c :: F2) = base + c.size + sumSizes F2 := by
      simp [sumSizes]; omega
    rw [harr, ih (base + c.size) b G (fun e he => hpos e (List.mem_cons_of_mem c he))]
    rfl

theorem set_append (Y : List HBlock) (b c : HBlock) :
    ∀ (X : List HBlock), (X ++ b :: Y).set X.length c = X ++ c :: Y := by
  intro X
  induction X with
  | nil => rfl
  | cons x t ih => simp [List.set, ih]

/-! Claim theorems. -/

/-- C1: the claim says that at each coalescing step of
    pmm_free_pages(address, order) in which the buddy address is present
    in the order's free list, the block removed is the buddy itself.  The
    code instead calls remove_from_free_list(order), which pops the head
    of the list.  Failing run, built from pmm_init and three allocations:
    before the final free of the page at 8192, the order-0 free list is
    [20480, 12288] and the buddy of 8192 is 12288; after the free the
    order-0 list is [12288] — the buddy is still there and the unrelated
    head block 20480 is the one that was removed. -/
theorem c1_merge_removes_head_not_buddy :
    getFL (pmm_free_pages (pmm_alloc_pages (pmm_alloc_pages (pmm_alloc_pages
        (pmm_init 4096 24576 8192) 0).1 0).1 0).1 20480 0).freeLists 0 = [20480, 12288] ∧
    get_buddy_addr 8192 0 = 12288 ∧
    getFL (pmm_free_pages (pmm_free_pages (pmm_alloc_pages (pmm_alloc_pages
        (pmm_alloc_pages (pmm_init 4096 24576 8192) 0).1 0).1 0).1 20480 0)
        8192 0).freeLists 0 = [12288] := by
  decide

/-- C2: the claim says pmm_alloc_pages(o) immediately followed by
    pmm_free_pages(returned, o) restores free_pages.  Failing run: after
    pmm_init the pool is one order-1 block and free_pages = 2; the order-0
    allocation splits it (free_pages 1) and the free re-merges it, but the
    merge loop credits 1 << merged_order without debiting the absorbed
    buddy, so free_pages ends at 3, not 2. -/
theorem c2_roundtrip_inflates_free_pages :
    (pmm_init 8192 16384 8192).freePages = 2 ∧
    (pmm_free_pages (pmm_alloc_pages (pmm_init 8192 16384 8192) 0).1
      (pmm_alloc_pages (pmm_init 8192 16384 8192) 0).2 0).freePages = 3 := by
  decide

/-- C3: the claim says free_pages plus pages held by callers equals
    total_pages at every observation point.  Failing run (same scenario as
    C2, with the kernel boundary at mem_start so that initially
    free_pages = total_pages = 2): after the allocation one page is held
    and free_pages = 1 (sum 2), but after it is freed again nothing is
    held and free_pages = 3 ≠ total_pages = 2. -/
theorem c3_conservation_violated :
    (pmm_init 8192 16384 8192).totalPages = 2 ∧
    (pmm_init 8192 16384 8192).freePages = 2 ∧
    (pmm_alloc_pages (pmm_init 8192 16384 8192) 0).1.freePages = 1 ∧
    (pmm_free_pages (pmm_alloc_pages (pmm_init 8192 16384 8192) 0).1
      (pmm_alloc_pages (pmm_init 8192 16384 8192) 0).2 0).freePages = 3 := by
  decide

/-- C4, counterexample to the claim as stated: a reachable state (straight
    out of pmm_init on an 8 MiB available region) whose free list of order
    PMM_MAX_ORDER holds the two buddies 8388608 and
    8388608 XOR blockSize 10 = 12582912 simultaneously: blocks of the top
    order are never merged, so nothing prevents buddy pairs there. -/
theorem c4_counterexample_max_order_pair :
    ∃ s : PmmState, Reach s [] ∧
      ∃ e ∈ getFL s.freeLists PMM_MAX_ORDER,
        (e ^^^ blockSize PMM_MAX_ORDER) ∈ getFL s.freeLists PMM_MAX_ORDER := by
  refine ⟨pmm_init 4096 16777216 8388608,
    Reach.init 4096 16777216 8388608 ⟨by norm_num, by norm_num, by norm_num, by norm_num [U64]⟩,
    8388608, by decide, by decide⟩

/-- C4 (amended): in every reachable state of the page allocator, two free
    blocks of the same order BELOW PMM_MAX_ORDER that are buddies never
    appear in that order's free list simultaneously; at order
    PMM_MAX_ORDER buddy pairs can coexist (see the counterexample), since
    the coalescing loop stops at the top order. -/
theorem c4_no_buddy_pairs_below_max {s : PmmState} {held : List (Nat × Nat)}
    (h : Reach s held) {o : Nat} (ho : o < PMM_MAX_ORDER) :
    NoPair (getFL s.freeLists o) o :=
  (reach_inv h).hnopair o ho

theorem c4_witness :
    NoPair (getFL (pmm_init 4096 16777216 8388608).freeLists 0) 0 :=
  c4_no_buddy_pairs_below_max
    (Reach.init 4096 16777216 8388608
      ⟨by norm_num, by norm_num, by norm_num, by norm_num [U64]⟩)
    (by norm_num [PMM_MAX_ORDER])

/-- C5: in every reachable allocator state, every address returned by a
    successful pmm_alloc_pages(o) is aligned to PAGE_SIZE << o. -/
theorem c5_alloc_aligned {s : PmmState} {held : List (Nat × Nat)} (h : Reach s held)
    (o : Nat) {s2 : PmmState} {a : Nat}
    (he : pmm_alloc_pages s o = (s2, a)) (ha : a ≠ 0) :
    a % (PAGE_SIZE <<< o) = 0 :=
  ((pmm_alloc_success (reach_inv h) o he ha).2.1).1

theorem c5_witness :
    (pmm_alloc_pages (pmm_init 8192 16384 8192) 0).2 % (PAGE_SIZE <<< 0) = 0 :=
  c5_alloc_aligned
    (Reach.init 8192 16384 8192
      ⟨by norm_num, by norm_num, by norm_num, by norm_num [U64]⟩)
    0 rfl (by decide)

/-- C9: before pmm_init has run (the zero-initialized static state, and in
    fact any state with the initialized flag clear), pmm_alloc_pages
    returns the failure sentinel 0 leaving the state unchanged, and
    pmm_free_pages returns leaving the state unchanged, for every
    argument. -/
theorem c9_uninit_noop (s : PmmState) (hs : s.initialized = false) (addr order : Nat) :
    pmm_alloc_pages s order = (s, 0) ∧ pmm_free_pages s addr order = s := by
  constructor
  · unfold pmm_alloc_pages
    rw [hs, if_pos rfl]
  · unfold pmm_free_pages
    rw [hs, if_pos rfl]

theorem c9_witness :
    pmm_alloc_pages pmm_uninit 3 = (pmm_uninit, 0) ∧
      pmm_free_pages pmm_uninit 12345 3 = pmm_uninit :=
  c9_uninit_noop pmm_uninit rfl 12345 3

/-- C10: kfree(NULL) is a silent no-op: the NULL check is the first thing
    kfree does, before any logging or state access, so the state (num_frees
    included) is unchanged and no error is reported (the nullRet outcome is
    the plain early return of the C code, distinct from the logged error
    outcomes). -/
theorem c10_kfree_null_noop (s : HeapState) : kfree s 0 = (s, KfreeResult.nullRet) := rfl

/-- C6: in every heap state reachable from heap_init by any sequence of
    kmalloc, kcalloc, kfree and krealloc calls, no two adjacent blocks of
    the block list are both free. -/
theorem c6_no_adjacent_free {s : HeapState} (h : ReachHeap s) : NoAdjFree s.blocks :=
  heap_reach_noadj h

theorem c6_witness :
    NoAdjFree (kfree (kmalloc (heap_init 1048576 65536) 100).1
      ((kmalloc (heap_init 1048576 65536) 100).2.getD 0)).1.blocks :=
  c6_no_adjacent_free
    (ReachHeap.freeStep _ (ReachHeap.mallocStep 100 (ReachHeap.init 1048576 65536)))

/-- C7: calling kfree a second time on the same pointer reports DoubleFree
    and leaves the entire heap state (num_frees and the used sizes
    included) unchanged.  The block list is given in the decomposed form
    X ++ b :: Y with the freed block b used and its neighbors not free, so
    that the coalescing pass of the first kfree provably keeps a live
    header at the same address (in the C code the absorbed stale header
    would serve the same role when a neighbor merges). -/
theorem c7_double_free {s : HeapState} {X Y : List HBlock} {b : HBlock} {ptr : Nat}
    (hblocks : s.blocks = X ++ b :: Y)
    (hb : b.isFree = false)
    (hprev : ∀ u, X.getLast? = some u → u.isFree = false)
    (hnext : ∀ y, Y.head? = some y → y.isFree = false)
    (hpos : ∀ c ∈ s.blocks, 0 < c.size)
    (hini : s.initialized = true)
    (hptr : ptr = s.heapStart + sumSizes X + BLOCK_HEADER_SIZE)
    (hend : s.heapStart + sumSizes X < s.heapEnd)
    (hfit : s.heapStart + sumSizes X + BLOCK_HEADER_SIZE < U64) :
    ∃ s1, kfree s ptr = (s1, KfreeResult.freed) ∧
      kfree s1 ptr = (s1, KfreeResult.doubleFree) := by
  have hB : BLOCK_HEADER_SIZE = 32 := rfl
  have hposX : ∀ c ∈ X, 0 < c.size := by
    intro c hc
    refine hpos c ?_
    rw [hblocks]
    exact List.mem_append_left _ hc
  have hptr0 : ptr ≠ 0 := by omega
  have hwsub : wsub ptr BLOCK_HEADER_SIZE = s.heapStart + sumSizes X := by
    simp only [wsub, U64, BLOCK_HEADER_SIZE] at *
    omega
  obtain ⟨F, T, hmerge, hsumF, hposF⟩ := merge_decomp X ⟨b.size, true⟩ Y hprev hnext hposX
  refine ⟨{ s with blocks := F ++ ⟨b.size, true⟩ :: T, numFrees := wadd s.numFrees 1 }, ?_, ?_⟩
  · unfold kfree
    rw [if_neg hptr0, hini, if_neg (by simp)]
    dsimp only
    rw [hwsub, if_neg (by omega), hblocks,
        find_block_prefix X s.heapStart b Y hposX]
    dsimp only
    rw [hb, if_neg (by simp), set_append Y b ⟨b.size, true⟩ X, hmerge]
  · unfold kfree
    dsimp only
    rw [if_neg hptr0, hini, if_neg (by simp), hwsub, if_neg (by omega),
        show sumSizes X = sumSizes F from hsumF.symm,
        find_block_prefix F s.heapStart ⟨b.size, true⟩ T hposF]
    dsimp only
    rw [if_pos rfl]

theorem c7_witness :
    ∃ s1, kfree ⟨4096, 4352, 256, [⟨48, false⟩, ⟨208, false⟩], 0, 0, true⟩ 4128
        = (s1, KfreeResult.freed) ∧
      kfree s1 4128 = (s1, KfreeResult.doubleFree) :=
  c7_double_free (X := []) (Y := [⟨208, false⟩]) (b := ⟨48, false⟩)
    rfl rfl
    (by intro u h; cases h)
    (by intro y h; cases h; rfl)
    (by decide) rfl (by decide) (by decide) (by decide)

/-- C8, counterexample to the claim as stated: the claim says that
    whenever nmemb * size wraps modulo 2^64, kcalloc allocates the wrapped
    count and returns a non-null pointer instead of failing.  With
    nmemb = size = 2^32 the product wraps to 0, kmalloc(0) returns NULL,
    and kcalloc returns NULL. -/
theorem c8_counterexample_wrap_to_zero :
    U64 ≤ 4294967296 * 4294967296 ∧
      (kcalloc (heap_init 1048576 65536) 4294967296 4294967296).2.1 = none := by
  decide

/-- C8 (amended): kcalloc computes the byte count as nmemb * size in
    wrapping 64-bit arithmetic with no overflow check and passes the
    wrapped (strictly smaller) count to kmalloc; when kmalloc succeeds on
    that wrapped count, kcalloc returns its non-null pointer and the
    zeroing loop writes only the wrapped count of bytes; when the wrapped
    count cannot be allocated (in particular when it is 0), kcalloc
    returns NULL (see the counterexample). -/
theorem c8_kcalloc_wraps {s : HeapState} {nmemb size : Nat}
    (hwrap : U64 ≤ nmemb * size)
    (hsucc : (kmalloc s (nmemb * size % U64)).2.isSome = true) :
    (kcalloc s nmemb size).2.1.isSome = true ∧
      (kcalloc s nmemb size).2.2 = nmemb * size % U64 ∧
      nmemb * size % U64 < nmemb * size := by
  have hU : 0 < U64 := by norm_num [U64]
  have hlt : nmemb * size % U64 < nmemb * size :=
    Nat.lt_of_lt_of_le (Nat.mod_lt _ hU) hwrap
  unfold kcalloc
  dsimp only
  cases hp : (kmalloc s (nmemb * size % U64)).2 with
  | none => rw [hp] at hsucc; cases hsucc
  | some a =>
    exact ⟨rfl, rfl, hlt⟩

theorem c8_witness :
    U64 ≤ 9223372036854775809 * 2 ∧
      ((kcalloc (heap_init 1048576 65536) 9223372036854775809 2).2.1.isSome = true ∧
        (kcalloc (heap_init 1048576 65536) 9223372036854775809 2).2.2
          = 9223372036854775809 * 2 % U64 ∧
        9223372036854775809 * 2 % U64 < 9223372036854775809 * 2) :=
  ⟨by decide, c8_kcalloc_wraps (by decide) (by decide)⟩

end Aeos
